import Mathlib

/-!
# Verification of the lliurex-state package differencing engine

This file gives a shallow embedding, in Lean 4, of the core of
`fetch_packages.py` from the `Canx/lliurex-state` repository: the control-file
parser (`parse_packages_file`), the deduplicating index and summary builder
(`get_package_summary`), the baseline loader (`load_previous_packages`) and the
diff engine (`compare_packages`), together with theorems about them.

Modelling conventions:

* Python strings are modelled as `List Char` (`Str`).  Python's string
  comparison is lexicographic on code points, which coincides with the
  lexicographic order on `List Char` induced by the order on `Char`.
* Python dicts that are used as ordered key-value mappings (package stanzas,
  the deduplicated index, the baseline, the timestamp ledger) are modelled as
  association lists in insertion order; `alookup` models membership tests and
  subscription, `updAssoc` models in-place update of an existing key (which in
  Python keeps the key's original position), and appending models inserting a
  fresh key (which in Python places it last).
* File I/O is modelled by passing state explicitly: `compare_packages` takes
  the ledger loaded by `load_change_timestamps` as an argument and returns the
  ledger written by `save_change_timestamps`; only the per-scope slice
  `all_timestamps[version][component]` is modelled, since the code never reads
  or writes any other slice during a run for that scope.  Similarly
  `load_previous_packages` takes the (optional) file content and the JSON
  decoder as arguments instead of reading a file.
* `list.sort(key=..., reverse=True)` (Python's stable sort, which keeps the
  relative order of elements with equal keys even with `reverse=True`) is
  modelled by the stable descending insertion sort `sortDescBy`: both are
  stable descending sorts with the same key order, which determines the output
  uniquely.
* Python's `int(...)` applied to a string is modelled by `pyInt?`, which
  accepts an optionally signed run of ASCII digits surrounded by whitespace
  and returns `none` (the `ValueError` case) otherwise; underscore separators
  and non-ASCII digits are not modelled (no claim depends on them).
-/

namespace LliurexState

/-- A Python string, as its list of characters. -/
abbrev Str := List Char

/-- An ordered field mapping: one parsed package stanza (a Python dict). -/
abbrev FieldMap := List (Str × Str)

/-- A baseline: the persisted name-to-version mapping of the previous run. -/
abbrev Baseline := List (Str × Str)

/-- The per-scope timestamp ledger: change key `"name:version"` to timestamp. -/
abbrev Ledger := List (Str × Str)

/-- Association-list lookup; models Python dict subscription / `in` tests. -/
def alookup {α : Type} : List (Str × α) → Str → Option α
  | [], _ => none
  | (k, v) :: rest, n => if k = n then some v else alookup rest n

/-- Replace the value stored at an existing key, keeping its position;
models Python's `d[k] = v` when `k` is already present. -/
def updAssoc {α : Type} : List (Str × α) → Str → α → List (Str × α)
  | [], _, _ => []
  | (k, v) :: rest, n, w => if k = n then (k, w) :: rest else (k, v) :: updAssoc rest n w

/-- `m.get(k, d)` on a Python dict of strings. -/
def getD (m : FieldMap) (k d : Str) : Str := (alookup m k).getD d

/-- The `Package` field key. -/
def pkgF : Str := "Package".data

/-- The `Version` field key. -/
def verF : Str := "Version".data

/-- The `Size` field key. -/
def sizeF : Str := "Size".data

/-- The `Architecture` field key. -/
def archF : Str := "Architecture".data

/-- The `Description` field key. -/
def descF : Str := "Description".data

/-- Python whitespace characters recognised by `str.strip()` (ASCII part). -/
def isWS (c : Char) : Bool :=
  c == ' ' || c == '\t' || c == '\n' || c == '\r' || c == '\x0b' || c == '\x0c'

/-- `s.strip()` on a Python string. -/
def pyStrip (l : Str) : Str :=
  (((l.dropWhile isWS).reverse).dropWhile isWS).reverse

/-- Numeric value of a run of ASCII digits. -/
def digitsVal (ds : Str) : Int :=
  ds.foldl (fun acc c => acc * 10 + ((c.toNat - '0'.toNat : Nat) : Int)) 0

/-- Python `int(s)` on a string: optionally signed ASCII digits surrounded by
whitespace; `none` models the `ValueError` raise. -/
def pyInt? (s : Str) : Option Int :=
  match pyStrip s with
  | '-' :: ds => if ds ≠ [] ∧ ds.all Char.isDigit then some (-(digitsVal ds)) else none
  | '+' :: ds => if ds ≠ [] ∧ ds.all Char.isDigit then some (digitsVal ds) else none
  | ds => if ds ≠ [] ∧ ds.all Char.isDigit then some (digitsVal ds) else none

/-- One change record emitted by `compare_packages`: the merged dict
`{**pkg, 'previous_version': …, 'change_type': …, 'detected_at': …}`.
The three explicitly-set keys always win over any same-named key of `pkg`,
so they are modelled as separate structure fields; `fields` is `pkg`. -/
structure ChangeRec where
  fields : FieldMap
  previous_version : Option Str
  change_type : Str
  detected_at : Str
deriving DecidableEq

/-- The `'change_type'` value `'new'`. -/
def newCT : Str := "new".data

/-- The `'change_type'` value `'updated'`. -/
def updatedCT : Str := "updated".data

/-- The change key `f"{name}:{version_str}"` of a stanza. -/
def pkgKey (pkg : FieldMap) : Str :=
  getD pkg pkgF [] ++ ':' :: getD pkg verF []

/-- `if pkg_key not in timestamps: timestamps[pkg_key] = current_time` followed
by reading `timestamps[pkg_key]`: returns the stored timestamp and the
(possibly extended) ledger. -/
def getOrAssign (led : Ledger) (k now : Str) : Str × Ledger :=
  match alookup led k with
  | some t => (t, led)
  | none => (now, led ++ [(k, now)])

/-- The main loop of `compare_packages` (lines 158-185): walks the current
package list, producing the `new` list, the `updated` list and the final
ledger. -/
def compareLoop (previous : Baseline) (now : Str) :
    List FieldMap → Ledger → List ChangeRec × List ChangeRec × Ledger
  | [], led => ([], [], led)
  | pkg :: rest, led =>
    let name := getD pkg pkgF []
    let ver := getD pkg verF []
    let key := name ++ ':' :: ver
    match alookup previous name with
    | some prevVer =>
      if prevVer = ver then
        compareLoop previous now rest led
      else
        let p := getOrAssign led key now
        let r := compareLoop previous now rest p.2
        (r.1, ⟨pkg, some prevVer, updatedCT, p.1⟩ :: r.2.1, r.2.2)
    | none =>
      let p := getOrAssign led key now
      let r := compareLoop previous now rest p.2
      (⟨pkg, none, newCT, p.1⟩ :: r.1, r.2.1, r.2.2)

/-- Stable descending insertion, used to model Python's stable sort with
`reverse=True`: `x` is placed before the first element whose key is not
strictly greater than `x`'s key. -/
def insertDescBy {α : Type} {β : Type} [LinearOrder β] (key : α → β) (x : α) :
    List α → List α
  | [] => [x]
  | y :: ys => if key x < key y then y :: insertDescBy key x ys else x :: y :: ys

/-- Stable descending sort by a key, modelling
`list.sort(key=..., reverse=True)` / `sorted(..., key=..., reverse=True)`. -/
def sortDescBy {α : Type} {β : Type} [LinearOrder β] (key : α → β) :
    List α → List α
  | [] => []
  | x :: xs => insertDescBy key x (sortDescBy key xs)

/-- `compare_packages` (lines 143-193): compares the current package list with
the previous baseline, threading the per-scope timestamp ledger explicitly
(the Python code loads it from `changes_timestamps.json` at entry and saves it
back before returning).  Returns the sorted change feed and the saved
ledger. -/
def compare_packages (current : List FieldMap) (previous : Baseline)
    (led : Ledger) (now : Str) : List ChangeRec × Ledger :=
  let r := compareLoop previous now current led
  (sortDescBy (fun c => c.detected_at) (r.1 ++ r.2.1), r.2.2)

/-- The classification a single stanza receives from the branch structure of
the loop of `compare_packages`: `none` when the baseline already holds the
same version (no record), `some none` when the name is absent from the
baseline (a new record), `some (some pv)` when the baseline holds the
different version `pv` (an updated record). -/
def diffCase (previous : Baseline) (pkg : FieldMap) : Option (Option Str) :=
  match alookup previous (getD pkg pkgF []) with
  | none => some none
  | some pv => if pv = getD pkg verF [] then none else some (some pv)

/-- The deduplicated index: package name to winning record. -/
abbrev PkgIndex := List (Str × FieldMap)

/-- One step of the dedup loop of `get_package_summary` (lines 207-218):
records with an empty or missing `Package` field are skipped; a record with a
fresh name is inserted; an already-seen name is replaced only when the new
record's `Version` string is strictly greater (plain lexicographic string
comparison). -/
def dedupStep (acc : PkgIndex) (pkg : FieldMap) : PkgIndex :=
  let name := getD pkg pkgF []
  if name = [] then acc
  else
    match alookup acc name with
    | none => acc ++ [(name, pkg)]
    | some w => if getD w verF [] < getD pkg verF [] then updAssoc acc name pkg else acc

/-- The `unique_packages` dict of `get_package_summary`. -/
def uniquePackages (pkgs : List FieldMap) : PkgIndex :=
  pkgs.foldl dedupStep []

/-- `packages_list = list(unique_packages.values())`. -/
def pkgsList (pkgs : List FieldMap) : List FieldMap :=
  (uniquePackages pkgs).map Prod.snd

/-- Keeps the first record achieving the (lexicographically) maximal version:
the reference function the dedup loop is proved to implement, name by name. -/
def pickMax (o : Option FieldMap) (p : FieldMap) : Option FieldMap :=
  match o with
  | none => some p
  | some w => if getD w verF [] < getD p verF [] then some p else some w

/-- First maximal-version record of a candidate list. -/
def firstMax (l : List FieldMap) : Option FieldMap := l.foldl pickMax none

/-- The reduced display projection built at lines 252-260. -/
structure WebPkg where
  wpackage : Option Str
  wversion : Option Str
  warch : Option Str
  wsize : Option Str
  wdescription : Str
deriving DecidableEq

/-- `pkg` reduced to the display fields, with the description truncated. -/
def toWebPkg (p : FieldMap) : WebPkg :=
  ⟨alookup p pkgF, alookup p verF, alookup p archF, alookup p sizeF,
   ((alookup p descF).getD []).take 100⟩

/-- The dictionary returned by `get_package_summary`. `packages` and
`packages_dict` are `Option`s because the early return for an empty input list
(lines 197-204) produces a dict that lacks those two keys. -/
structure Summary where
  total_packages : Nat
  total_size : Int
  latest_packages : List FieldMap
  largest_packages : List FieldMap
  recent_changes : List ChangeRec
  packages : Option (List WebPkg)
  packages_dict : Option (List (Option Str × Option Str))
deriving DecidableEq

/-- The early-return summary for an empty package list. -/
def emptySummary : Summary := ⟨0, 0, [], [], [], none, none⟩

/-- `get_package_summary` (lines 195-270).  `scoped` models the truthiness of
`version and component` (which only controls whether the diff runs).  The
baseline and ledger are passed explicitly instead of being read from files.
The result summary is `none` when the computation raises: the sort at lines
245-249 applies the bare `int(...)` to every winner's `Size` and a non-numeric
value raises `ValueError` (the ledger has already been saved by
`compare_packages` at that point, so the updated ledger is still returned). -/
def get_package_summary (packages : List FieldMap) (hasScope : Bool)
    (previous : Baseline) (led : Ledger) (now : Str) : Option Summary × Ledger :=
  if packages = [] then (some emptySummary, led)
  else
    let plist := pkgsList packages
    let cr := if hasScope then compare_packages plist previous led now else ([], led)
    let total_size := plist.foldl
      (fun acc p => acc + ((pyInt? (getD p sizeF "0".data)).getD 0)) 0
    let latest := (sortDescBy (fun p => getD p verF []) plist).take 20
    match plist.mapM (fun p => (pyInt? (getD p sizeF "0".data)).map fun z => (p, z)) with
    | none => (none, cr.2)
    | some sized =>
      let largest := ((sortDescBy (fun pz => pz.2) sized).map Prod.fst).take 10
      (some ⟨plist.length, total_size, latest, largest, cr.1.take 30,
             some (plist.map toWebPkg),
             some (plist.map fun p => (alookup p pkgF, alookup p verF))⟩,
       cr.2)

/-- `content.split('\n')`: split a character list at every newline, keeping
empty pieces (so `splitLines []` is `[[]]`, like `''.split('\n')`). -/
def splitLines : Str → List Str
  | [] => [[]]
  | c :: rest =>
    if c = '\n' then [] :: splitLines rest
    else
      match splitLines rest with
      | l :: ls => (c :: l) :: ls
      | [] => [[c]]

/-- Parser state of `parse_packages_file`: emitted stanzas, the stanza being
built, and the most recently started field. -/
structure PState where
  acc : List FieldMap
  cur : FieldMap
  curField : Option Str
deriving DecidableEq

/-- `current_package[key] = value` on a Python dict: update in place if the
key exists (keeping its position), otherwise append. -/
def setField (m : FieldMap) (k v : Str) : FieldMap :=
  match alookup m k with
  | some _ => updAssoc m k v
  | none => m ++ [(k, v)]

/-- One iteration of the line loop of `parse_packages_file` (lines 57-74).
The continuation guard `if current_field and current_field in current_package`
requires the current field to be truthy (a non-empty string) and present. -/
def parseLine (st : PState) (line : Str) : PState :=
  if pyStrip line = [] then
    if st.cur ≠ [] then ⟨st.acc ++ [st.cur], [], none⟩ else st
  else if (match line with | c :: _ => c == ' ' || c == '\t' | [] => false) then
    match st.curField with
    | some f =>
      if f ≠ [] ∧ (alookup st.cur f).isSome then
        { st with cur := updAssoc st.cur f (((alookup st.cur f).getD []) ++ ' ' :: pyStrip line) }
      else st
    | none => st
  else if line.contains ':' then
    let key := pyStrip (line.takeWhile (fun c => c != ':'))
    let value := pyStrip ((line.dropWhile (fun c => c != ':')).tail)
    { st with cur := setField st.cur key value, curField := some key }
  else st

/-- The line loop plus the final flush of a still-open stanza (lines 76-77). -/
def parseLines (lines : List Str) : List FieldMap :=
  let st := lines.foldl parseLine ⟨[], [], none⟩
  if st.cur ≠ [] then st.acc ++ [st.cur] else st.acc

/-- `parse_packages_file` (lines 51-79). -/
def parse_packages_file (content : String) : List FieldMap :=
  parseLines (splitLines content.data)

/-- One line's worth of a well-formed stanza: either a `key: value` field line
or a continuation line carrying some content. -/
inductive Item where
  | fld : Str → Str → Item
  | cont : Str → Item
deriving DecidableEq

/-- Rendering an item back to its source line. -/
def renderItem : Item → Str
  | .fld k v => k ++ ':' :: v
  | .cont c => ' ' :: c

/-- Well-formedness of an item: keys are trimmed, non-empty, and contain no
colon or newline; values and continuation contents are trimmed and contain no
newline; continuation contents are non-empty (a whitespace-only line would be
a blank line). -/
def wfItem : Item → Prop
  | .fld k v => pyStrip k = k ∧ k ≠ [] ∧ k.contains ':' = false ∧
      k.contains '\n' = false ∧ pyStrip v = v ∧ v.contains '\n' = false
  | .cont c => pyStrip c = c ∧ c ≠ [] ∧ c.contains '\n' = false

instance : DecidablePred wfItem := by
  intro it
  cases it <;> simp only [wfItem] <;> infer_instance

/-- Whether a stanza opens with a field line (so that its first continuation
line has a field to attach to). -/
def headIsField : List Item → Bool
  | .fld _ _ :: _ => true
  | _ => false

/-- A well-formed stanza: non-empty, opening with a field line, all items
well-formed. -/
def wfStanza (st : List Item) : Prop :=
  st ≠ [] ∧ headIsField st = true ∧ ∀ it ∈ st, wfItem it

instance : DecidablePred wfStanza := by
  intro st
  unfold wfStanza
  infer_instance

/-- Modelled from the spec: the field mapping a well-formed stanza should
parse to.  A field line binds its key to the text after the first colon,
inserting the key at the end on first sight and updating in place afterwards;
a continuation line appends its content to the most recently started field,
joined by a single space. -/
def evalItems : FieldMap → Option Str → List Item → FieldMap
  | m, _, [] => m
  | m, _, .fld k v :: rest => evalItems (setField m k v) (some k) rest
  | m, cf, .cont c :: rest =>
    match cf with
    | some f => evalItems (updAssoc m f (((alookup m f).getD []) ++ ' ' :: c)) cf rest
    | none => evalItems m cf rest

/-- The expected parse of one well-formed stanza. -/
def evalStanza (st : List Item) : FieldMap := evalItems [] none st

/-- The source lines of one stanza. -/
def renderStanzaLines (st : List Item) : List Str := st.map renderItem

/-- The source lines of a stanza sequence: stanzas separated by one blank
line. -/
def renderLines (stanzas : List (List Item)) : List Str :=
  ((stanzas.map renderStanzaLines).intersperse [[]]).flatten

/-- Join lines with newlines (inverse of `splitLines`). -/
def joinNl : List Str → Str
  | [] => []
  | [l] => l
  | l :: ls => l ++ '\n' :: joinNl ls

/-- The key of the most recently started field after processing a list of
items, starting from current field `f`. -/
def lastField (f : Str) : List Item → Str
  | [] => f
  | .fld k _ :: rest => lastField k rest
  | .cont _ :: rest => lastField f rest

/-- The nested object persisted in `packages_state_internal.json`:
version label to component label to baseline. -/
abbrev StateObj := List (Str × List (Str × Baseline))

/-- `load_previous_packages` (lines 110-120).  The file content is passed as
an `Option Str` (`none` models `FileNotFoundError`) and the JSON decoder as a
function returning `none` on `JSONDecodeError`. -/
def load_previous_packages (file : Option Str) (jsonParse : Str → Option StateObj)
    (version component : Str) : Baseline :=
  match file with
  | none => []
  | some content =>
    if pyStrip content = [] then []
    else
      match jsonParse content with
      | none => []
      | some state => (alookup ((alookup state version).getD []) component).getD []

/-! ## Association list lemmas -/

theorem alookup_append {α : Type} (l₁ l₂ : List (Str × α)) (n : Str) :
    alookup (l₁ ++ l₂) n = ((alookup l₁ n).elim (alookup l₂ n) some) := by
  induction l₁ with
  | nil => simp [alookup]
  | cons hd tl ih =>
    obtain ⟨k, v⟩ := hd
    by_cases h : k = n <;> simp [alookup, h, ih]

theorem alookup_eq_none_iff {α : Type} (l : List (Str × α)) (n : Str) :
    alookup l n = none ↔ n ∉ l.map Prod.fst := by
  induction l with
  | nil => simp [alookup]
  | cons hd tl ih =>
    obtain ⟨k, v⟩ := hd
    by_cases h : k = n
    · constructor
      · intro hc
        simp only [alookup, if_pos h] at hc
        exact Option.noConfusion hc
      · intro hc
        exact absurd (show n ∈ ((k, v) :: tl).map Prod.fst by
          rw [List.map_cons, h]; exact List.mem_cons_self n _) hc
    · simp only [alookup, if_neg h, List.map_cons, List.mem_cons, not_or, ih]
      exact ⟨fun hn => ⟨fun he => h he.symm, hn⟩, fun hn => hn.2⟩

theorem alookup_updAssoc_ne {α : Type} (l : List (Str × α)) (k n : Str) (w : α)
    (h : k ≠ n) : alookup (updAssoc l k w) n = alookup l n := by
  induction l with
  | nil => simp [updAssoc]
  | cons hd tl ih =>
    obtain ⟨k', v⟩ := hd
    by_cases h' : k' = k
    · subst h'
      simp [updAssoc, alookup, h]
    · simp only [updAssoc, if_neg h']
      by_cases h'' : k' = n <;> simp [alookup, h'', ih]

theorem alookup_updAssoc_self {α : Type} (l : List (Str × α)) (k : Str) (w : α)
    (h : (alookup l k).isSome) : alookup (updAssoc l k w) k = some w := by
  induction l with
  | nil => simp [alookup] at h
  | cons hd tl ih =>
    obtain ⟨k', v⟩ := hd
    by_cases h' : k' = k
    · simp [updAssoc, alookup, h']
    · simp [updAssoc, alookup, h'] at h ⊢
      exact ih h

theorem map_fst_updAssoc {α : Type} (l : List (Str × α)) (k : Str) (w : α) :
    (updAssoc l k w).map Prod.fst = l.map Prod.fst := by
  induction l with
  | nil => simp [updAssoc]
  | cons hd tl ih =>
    obtain ⟨k', v⟩ := hd
    by_cases h' : k' = k <;> simp [updAssoc, h', ih]

theorem mem_updAssoc {α : Type} {l : List (Str × α)} {k : Str} {w : α} {e : Str × α}
    (h : e ∈ updAssoc l k w) : e ∈ l ∨ e = (k, w) := by
  induction l with
  | nil => simp [updAssoc] at h
  | cons hd tl ih =>
    obtain ⟨k', v⟩ := hd
    by_cases h' : k' = k
    · subst h'
      simp only [updAssoc, if_pos rfl] at h
      rcases List.mem_cons.mp h with h | h
      · exact Or.inr (by rw [h])
      · exact Or.inl (List.mem_cons_of_mem _ h)
    · simp only [updAssoc, if_neg h'] at h
      rcases List.mem_cons.mp h with h | h
      · exact Or.inl (by rw [h]; exact List.mem_cons_self _ _)
      · rcases ih h with h'' | h''
        · exact Or.inl (List.mem_cons_of_mem _ h'')
        · exact Or.inr h''

/-! ## Ledger lemmas -/

theorem getOrAssign_lookup_self (led : Ledger) (k now : Str) :
    alookup (getOrAssign led k now).2 k = some (getOrAssign led k now).1 := by
  unfold getOrAssign
  cases h : alookup led k with
  | some t => simp [h]
  | none => simp [h, alookup_append, alookup]

theorem getOrAssign_preserves (led : Ledger) (k now k' : Str) (t : Str)
    (h : alookup led k' = some t) : alookup (getOrAssign led k now).2 k' = some t := by
  unfold getOrAssign
  cases h' : alookup led k with
  | some u => simpa [h'] using h
  | none => simp [h', alookup_append, h]

theorem getOrAssign_of_found (led : Ledger) (k now : Str) (t : Str)
    (h : alookup led k = some t) : getOrAssign led k now = (t, led) := by
  unfold getOrAssign
  simp [h]

/-! ## Stable descending sort lemmas -/

theorem mem_insertDescBy {α β : Type} [LinearOrder β] (key : α → β) (x a : α)
    (l : List α) : a ∈ insertDescBy key x l ↔ a = x ∨ a ∈ l := by
  induction l with
  | nil => simp [insertDescBy]
  | cons y ys ih =>
    by_cases h : key x < key y
    · simp only [insertDescBy, if_pos h, List.mem_cons, ih]
      tauto
    · simp only [insertDescBy, if_neg h, List.mem_cons]

theorem mem_sortDescBy {α β : Type} [LinearOrder β] (key : α → β) (a : α)
    (l : List α) : a ∈ sortDescBy key l ↔ a ∈ l := by
  induction l with
  | nil => simp [sortDescBy]
  | cons y ys ih => simp [sortDescBy, mem_insertDescBy, ih]

theorem length_insertDescBy {α β : Type} [LinearOrder β] (key : α → β) (x : α)
    (l : List α) : (insertDescBy key x l).length = l.length + 1 := by
  induction l with
  | nil => simp [insertDescBy]
  | cons y ys ih =>
    by_cases h : key x < key y <;> simp [insertDescBy, h, ih]

theorem length_sortDescBy {α β : Type} [LinearOrder β] (key : α → β)
    (l : List α) : (sortDescBy key l).length = l.length := by
  induction l with
  | nil => rfl
  | cons y ys ih => simp [sortDescBy, length_insertDescBy, ih]

theorem countP_insertDescBy {α β : Type} [LinearOrder β] (key : α → β) (x : α)
    (l : List α) (p : α → Bool) :
    (insertDescBy key x l).countP p = (x :: l).countP p := by
  induction l with
  | nil => simp [insertDescBy]
  | cons y ys ih =>
    by_cases h : key x < key y
    · simp only [insertDescBy, if_pos h]
      simp only [List.countP_cons] at ih ⊢
      omega
    · simp [insertDescBy, h]

theorem countP_sortDescBy {α β : Type} [LinearOrder β] (key : α → β)
    (l : List α) (p : α → Bool) : (sortDescBy key l).countP p = l.countP p := by
  induction l with
  | nil => rfl
  | cons y ys ih =>
    simp only [sortDescBy, countP_insertDescBy, List.countP_cons, ih]

theorem filter_insertDescBy {α β : Type} [LinearOrder β] [BEq β] [LawfulBEq β]
    (key : α → β) (x : α) (l : List α) (t : β) :
    (insertDescBy key x l).filter (fun a => key a == t)
      = if key x = t then x :: l.filter (fun a => key a == t)
        else l.filter (fun a => key a == t) := by
  induction l with
  | nil =>
    by_cases h : key x = t <;> simp [insertDescBy, List.filter_cons, h]
  | cons y ys ih =>
    by_cases h : key x < key y
    · simp only [insertDescBy, if_pos h]
      by_cases hx : key x = t
      · have hy : ¬ key y = t := fun hy => absurd h (by rw [hx, hy]; exact lt_irrefl t)
        simp [List.filter_cons, hx, hy, ih, beq_iff_eq]
      · by_cases hy : key y = t <;> simp [List.filter_cons, hx, hy, ih, beq_iff_eq]
    · simp only [insertDescBy, if_neg h]
      by_cases hx : key x = t <;> simp [List.filter_cons, hx, beq_iff_eq]

theorem filter_sortDescBy {α β : Type} [LinearOrder β] [BEq β] [LawfulBEq β]
    (key : α → β) (l : List α) (t : β) :
    (sortDescBy key l).filter (fun a => key a == t) = l.filter (fun a => key a == t) := by
  induction l with
  | nil => rfl
  | cons y ys ih =>
    simp only [sortDescBy, filter_insertDescBy, ih]
    by_cases hy : key y = t <;> simp [List.filter_cons, hy, beq_iff_eq]

theorem pairwise_insertDescBy {α β : Type} [LinearOrder β] (key : α → β) (x : α)
    (l : List α) (h : l.Pairwise (fun a b => key b ≤ key a)) :
    (insertDescBy key x l).Pairwise (fun a b => key b ≤ key a) := by
  induction l with
  | nil => simp [insertDescBy]
  | cons y ys ih =>
    rcases List.pairwise_cons.mp h with ⟨hy, hys⟩
    by_cases hlt : key x < key y
    · simp only [insertDescBy, if_pos hlt]
      refine List.pairwise_cons.mpr ⟨?_, ih hys⟩
      intro a ha
      rcases (mem_insertDescBy key x a ys).mp ha with rfl | ha'
      · exact le_of_lt hlt
      · exact hy a ha'
    · simp only [insertDescBy, if_neg hlt]
      refine List.pairwise_cons.mpr ⟨?_, h⟩
      intro a ha
      rcases List.mem_cons.mp ha with rfl | ha'
      · exact not_lt.mp hlt
      · exact le_trans (hy a ha') (not_lt.mp hlt)

theorem pairwise_sortDescBy {α β : Type} [LinearOrder β] (key : α → β)
    (l : List α) : (sortDescBy key l).Pairwise (fun a b => key b ≤ key a) := by
  induction l with
  | nil => simp [sortDescBy]
  | cons y ys ih => exact pairwise_insertDescBy key y (sortDescBy key ys) ih

/-! ## Diff loop lemmas -/

theorem compareLoop_ledger_preserves (previous : Baseline) (now : Str)
    (cur : List FieldMap) (led : Ledger) (k t : Str)
    (h : alookup led k = some t) :
    alookup (compareLoop previous now cur led).2.2 k = some t := by
  induction cur generalizing led with
  | nil => simpa [compareLoop] using h
  | cons pkg rest ih =>
    simp only [compareLoop]
    cases hl : alookup previous (getD pkg pkgF []) with
    | some prevVer =>
      by_cases hv : prevVer = getD pkg verF []
      · simpa [hv] using ih led h
      · simp only [if_neg hv]
        exact ih _ (getOrAssign_preserves _ _ _ _ _ h)
    | none =>
      exact ih _ (getOrAssign_preserves _ _ _ _ _ h)

theorem compareLoop_idem (previous : Baseline) (now1 now2 : Str)
    (cur : List FieldMap) (led : Ledger) :
    compareLoop previous now2 cur (compareLoop previous now1 cur led).2.2
      = compareLoop previous now1 cur led := by
  induction cur generalizing led with
  | nil => rfl
  | cons pkg rest ih =>
    simp only [compareLoop]
    cases hl : alookup previous (getD pkg pkgF []) with
    | some prevVer =>
      by_cases hv : prevVer = getD pkg verF []
      · simp only [if_pos hv]
        exact ih led
      · simp only [if_neg hv]
        have hfound : alookup
            (compareLoop previous now1 rest
              (getOrAssign led (getD pkg pkgF [] ++ ':' :: getD pkg verF []) now1).2).2.2
            (getD pkg pkgF [] ++ ':' :: getD pkg verF [])
            = some (getOrAssign led (getD pkg pkgF [] ++ ':' :: getD pkg verF []) now1).1 :=
          compareLoop_ledger_preserves _ _ _ _ _ _ (getOrAssign_lookup_self _ _ _)
        rw [getOrAssign_of_found _ _ _ _ hfound]
        simp only [ih]
    | none =>
      have hfound : alookup
          (compareLoop previous now1 rest
            (getOrAssign led (getD pkg pkgF [] ++ ':' :: getD pkg verF []) now1).2).2.2
          (getD pkg pkgF [] ++ ':' :: getD pkg verF [])
          = some (getOrAssign led (getD pkg pkgF [] ++ ':' :: getD pkg verF []) now1).1 :=
        compareLoop_ledger_preserves _ _ _ _ _ _ (getOrAssign_lookup_self _ _ _)
      rw [getOrAssign_of_found _ _ _ _ hfound]
      simp only [ih]

theorem compareLoop_detected_of_found (previous : Baseline) (now : Str)
    (cur : List FieldMap) (led : Ledger) (k t : Str)
    (h : alookup led k = some t) :
    ∀ r ∈ (compareLoop previous now cur led).1 ++ (compareLoop previous now cur led).2.1,
      pkgKey r.fields = k → r.detected_at = t := by
  induction cur generalizing led with
  | nil => simp [compareLoop]
  | cons pkg rest ih =>
    intro r hr hk
    simp only [compareLoop] at hr
    cases hl : alookup previous (getD pkg pkgF []) with
    | some prevVer =>
      simp only [hl] at hr
      by_cases hv : prevVer = getD pkg verF []
      · rw [if_pos hv] at hr
        exact ih led h r hr hk
      · rw [if_neg hv] at hr
        simp only [List.mem_append, List.mem_cons] at hr
        rcases hr with hr | hr | hr
        · exact ih _ (getOrAssign_preserves _ _ _ _ _ h) r (List.mem_append.mpr (Or.inl hr)) hk
        · subst hr
          simp only [pkgKey] at hk
          rw [hk] at *
          have : getOrAssign led k now = (t, led) := getOrAssign_of_found _ _ _ _ h
          simp [this]
        · exact ih _ (getOrAssign_preserves _ _ _ _ _ h) r (List.mem_append.mpr (Or.inr hr)) hk
    | none =>
      simp only [hl] at hr
      simp only [List.cons_append, List.mem_cons, List.mem_append] at hr
      rcases hr with hr | hr
      · subst hr
        simp only [pkgKey] at hk
        rw [hk] at *
        have : getOrAssign led k now = (t, led) := getOrAssign_of_found _ _ _ _ h
        simp [this]
      · exact ih _ (getOrAssign_preserves _ _ _ _ _ h) r (List.mem_append.mpr hr) hk

theorem compareLoop_shape (previous : Baseline) (now : Str)
    (cur : List FieldMap) (led : Ledger) :
    (∀ r ∈ (compareLoop previous now cur led).1,
        r.change_type = newCT ∧ r.previous_version = none ∧ r.fields ∈ cur ∧
        alookup previous (getD r.fields pkgF []) = none)
    ∧ (∀ r ∈ (compareLoop previous now cur led).2.1,
        r.change_type = updatedCT ∧ r.fields ∈ cur ∧
        ∃ pv, alookup previous (getD r.fields pkgF []) = some pv ∧
          r.previous_version = some pv ∧ pv ≠ getD r.fields verF []) := by
  induction cur generalizing led with
  | nil => simp [compareLoop]
  | cons pkg rest ih =>
    constructor
    · intro r hr
      simp only [compareLoop] at hr
      cases hl : alookup previous (getD pkg pkgF []) with
      | some prevVer =>
        simp only [hl] at hr
        by_cases hv : prevVer = getD pkg verF []
        · rw [if_pos hv] at hr
          obtain ⟨h1, h2, h3, h4⟩ := (ih led).1 r hr
          exact ⟨h1, h2, List.mem_cons_of_mem _ h3, h4⟩
        · rw [if_neg hv] at hr
          obtain ⟨h1, h2, h3, h4⟩ := (ih _).1 r hr
          exact ⟨h1, h2, List.mem_cons_of_mem _ h3, h4⟩
      | none =>
        simp only [hl] at hr
        rcases List.mem_cons.mp hr with hr | hr
        · subst hr
          exact ⟨rfl, rfl, List.mem_cons_self _ _, hl⟩
        · obtain ⟨h1, h2, h3, h4⟩ := (ih _).1 r hr
          exact ⟨h1, h2, List.mem_cons_of_mem _ h3, h4⟩
    · intro r hr
      simp only [compareLoop] at hr
      cases hl : alookup previous (getD pkg pkgF []) with
      | some prevVer =>
        simp only [hl] at hr
        by_cases hv : prevVer = getD pkg verF []
        · rw [if_pos hv] at hr
          obtain ⟨h1, h2, hex⟩ := (ih led).2 r hr
          exact ⟨h1, List.mem_cons_of_mem _ h2, hex⟩
        · rw [if_neg hv] at hr
          rcases List.mem_cons.mp hr with hr | hr
          · subst hr
            exact ⟨rfl, List.mem_cons_self _ _, prevVer, hl, rfl, hv⟩
          · obtain ⟨h1, h2, hex⟩ := (ih _).2 r hr
            exact ⟨h1, List.mem_cons_of_mem _ h2, hex⟩
      | none =>
        simp only [hl] at hr
        obtain ⟨h1, h2, hex⟩ := (ih _).2 r hr
        exact ⟨h1, List.mem_cons_of_mem _ h2, hex⟩

theorem compareLoop_nil_baseline (now : Str) (cur : List FieldMap) (led : Ledger) :
    (compareLoop [] now cur led).2.1 = []
    ∧ (compareLoop [] now cur led).1.length = cur.length := by
  induction cur generalizing led with
  | nil => simp [compareLoop]
  | cons pkg rest ih =>
    simp only [compareLoop, alookup]
    obtain ⟨h1, h2⟩ := ih (getOrAssign led (getD pkg pkgF [] ++ ':' :: getD pkg verF []) now).2
    exact ⟨h1, by simp [h2]⟩

theorem compareLoop_countP (previous : Baseline) (now : Str)
    (p : ChangeRec → Bool)
    (hp : ∀ f pv ct t₁ t₂, p ⟨f, pv, ct, t₁⟩ = p ⟨f, pv, ct, t₂⟩)
    (cur : List FieldMap) (led : Ledger) :
    ((compareLoop previous now cur led).1 ++ (compareLoop previous now cur led).2.1).countP p
      = cur.countP (fun pkg =>
          match diffCase previous pkg with
          | none => false
          | some none => p ⟨pkg, none, newCT, []⟩
          | some (some pv) => p ⟨pkg, some pv, updatedCT, []⟩) := by
  induction cur generalizing led with
  | nil => simp [compareLoop]
  | cons pkg rest ih =>
    rw [List.countP_cons]
    simp only [compareLoop]
    cases hl : alookup previous (getD pkg pkgF []) with
    | some prevVer =>
      have hd : diffCase previous pkg
          = if prevVer = getD pkg verF [] then none else some (some prevVer) := by
        simp [diffCase, hl]
      by_cases hv : prevVer = getD pkg verF []
      · rw [if_pos hv] at hd
        simp only [if_pos hv, hd, ih led]
        simp
      · rw [if_neg hv] at hd
        simp only [if_neg hv, hd]
        rw [List.countP_append, List.countP_cons]
        have h2 := ih (getOrAssign led (getD pkg pkgF [] ++ ':' :: getD pkg verF []) now).2
        rw [List.countP_append] at h2
        rw [hp pkg (some prevVer) updatedCT
          ((getOrAssign led (getD pkg pkgF [] ++ ':' :: getD pkg verF []) now).1) []]
        omega
    | none =>
      have hd : diffCase previous pkg = some none := by
        simp [diffCase, hl]
      simp only [hd]
      rw [List.cons_append, List.countP_cons, List.countP_append]
      have h2 := ih (getOrAssign led (getD pkg pkgF [] ++ ':' :: getD pkg verF []) now).2
      rw [List.countP_append] at h2
      rw [hp pkg none newCT
        ((getOrAssign led (getD pkg pkgF [] ++ ':' :: getD pkg verF []) now).1) []]
      omega

theorem countP_eq_single {α : Type} (f : α → Str) (g : α → Bool) (l : List α)
    (x : α) (hnd : (l.map f).Nodup) (hx : x ∈ l) :
    l.countP (fun y => (f y == f x) && g y) = if g x then 1 else 0 := by
  induction l with
  | nil => cases hx
  | cons h t ih =>
    rw [List.map_cons, List.nodup_cons] at hnd
    rcases List.mem_cons.mp hx with rfl | hx'
    · rw [List.countP_cons]
      have hz : t.countP (fun y => (f y == f x) && g y) = 0 := by
        rw [List.countP_eq_zero]
        intro a ha
        have hne : f a ≠ f x := by
          intro he
          exact hnd.1 (he ▸ List.mem_map_of_mem f ha)
        simp [beq_eq_false_iff_ne, hne]
      rw [hz]
      by_cases hg : g x <;> simp [hg]
    · have hne : f h ≠ f x := by
        intro he
        exact hnd.1 (he ▸ List.mem_map_of_mem f hx')
      rw [List.countP_cons, ih hnd.2 hx']
      simp [beq_eq_false_iff_ne, hne]

/-! ## Dedup loop lemmas -/

theorem dedupStep_alookup_eq (acc : PkgIndex) (pkg : FieldMap) (n : Str)
    (hname : getD pkg pkgF [] = n) (hn : n ≠ []) :
    alookup (dedupStep acc pkg) n = pickMax (alookup acc n) pkg := by
  simp only [dedupStep, hname, if_neg hn]
  cases hacc : alookup acc n with
  | none =>
    simp only [pickMax, alookup_append, hacc, alookup, if_pos rfl]
    rfl
  | some w =>
    by_cases hv : getD w verF [] < getD pkg verF []
    · simp only [if_pos hv, pickMax]
      exact alookup_updAssoc_self acc n pkg (by simp [hacc])
    · simp only [if_neg hv, pickMax, hacc]

theorem dedupStep_alookup_ne (acc : PkgIndex) (pkg : FieldMap) (n : Str)
    (hname : getD pkg pkgF [] ≠ n) :
    alookup (dedupStep acc pkg) n = alookup acc n := by
  simp only [dedupStep]
  by_cases h0 : getD pkg pkgF [] = []
  · simp [h0]
  · simp only [if_neg h0]
    cases hacc : alookup acc (getD pkg pkgF []) with
    | none =>
      rw [alookup_append]
      cases h' : alookup acc n with
      | some v => simp
      | none => simp [alookup, fun h : getD pkg pkgF [] = n => hname h]
    | some w =>
      by_cases hv : getD w verF [] < getD pkg verF []
      · simp only [if_pos hv]
        exact alookup_updAssoc_ne acc (getD pkg pkgF []) n pkg hname
      · simp only [if_neg hv]

theorem foldl_dedupStep_alookup (pkgs : List FieldMap) (acc : PkgIndex) (n : Str)
    (hn : n ≠ []) :
    alookup (pkgs.foldl dedupStep acc) n
      = (pkgs.filter fun p => decide (getD p pkgF [] = n)).foldl pickMax (alookup acc n) := by
  induction pkgs generalizing acc with
  | nil => rfl
  | cons pkg rest ih =>
    rw [List.foldl_cons, List.filter_cons]
    by_cases hname : getD pkg pkgF [] = n
    · rw [ih, dedupStep_alookup_eq acc pkg n hname hn]
      simp [hname]
    · rw [ih, dedupStep_alookup_ne acc pkg n hname]
      simp [hname]

theorem uniquePackages_alookup (pkgs : List FieldMap) (n : Str) (hn : n ≠ []) :
    alookup (uniquePackages pkgs) n
      = firstMax (pkgs.filter fun p => decide (getD p pkgF [] = n)) := by
  unfold uniquePackages firstMax
  exact foldl_dedupStep_alookup pkgs [] n hn

theorem foldl_dedupStep_nodup (pkgs : List FieldMap) (acc : PkgIndex)
    (h : (acc.map Prod.fst).Nodup) :
    ((pkgs.foldl dedupStep acc).map Prod.fst).Nodup := by
  induction pkgs generalizing acc with
  | nil => exact h
  | cons pkg rest ih =>
    rw [List.foldl_cons]
    refine ih _ ?_
    simp only [dedupStep]
    by_cases h0 : getD pkg pkgF [] = []
    · simpa [h0] using h
    · simp only [if_neg h0]
      cases hacc : alookup acc (getD pkg pkgF []) with
      | none =>
        rw [List.map_append]
        have hnot : getD pkg pkgF [] ∉ acc.map Prod.fst :=
          (alookup_eq_none_iff acc _).mp hacc
        simp only [List.map_cons, List.map_nil]
        rw [List.nodup_append]
        refine ⟨h, List.nodup_singleton _, ?_⟩
        intro a ha hb
        rw [List.mem_singleton] at hb
        subst hb
        exact hnot ha
      | some w =>
        by_cases hv : getD w verF [] < getD pkg verF []
        · simpa [if_pos hv, map_fst_updAssoc] using h
        · simpa [if_neg hv] using h

theorem foldl_dedupStep_entries (pkgs : List FieldMap) (acc : PkgIndex)
    (h : ∀ e ∈ acc, e.1 ≠ [] ∧ alookup e.2 pkgF = some e.1) :
    ∀ e ∈ pkgs.foldl dedupStep acc, e.1 ≠ [] ∧ alookup e.2 pkgF = some e.1 := by
  induction pkgs generalizing acc with
  | nil => exact h
  | cons pkg rest ih =>
    rw [List.foldl_cons]
    refine ih _ ?_
    intro e he
    by_cases h0 : getD pkg pkgF [] = []
    · rw [show dedupStep acc pkg = acc by simp [dedupStep, h0]] at he
      exact h e he
    · have hself : alookup pkg pkgF = some (getD pkg pkgF []) := by
        cases hx : alookup pkg pkgF with
        | none => exact absurd (by simp [getD, hx]) h0
        | some x => simp [getD, hx]
      cases hacc : alookup acc (getD pkg pkgF []) with
      | none =>
        rw [show dedupStep acc pkg = acc ++ [(getD pkg pkgF [], pkg)] by
          simp [dedupStep, h0, hacc]] at he
        rcases List.mem_append.mp he with he' | he'
        · exact h e he'
        · have : e = (getD pkg pkgF [], pkg) := by simpa using he'
          rw [this]
          exact ⟨h0, hself⟩
      | some w =>
        by_cases hv : getD w verF [] < getD pkg verF []
        · rw [show dedupStep acc pkg = updAssoc acc (getD pkg pkgF []) pkg by
            simp [dedupStep, h0, hacc, hv]] at he
          rcases mem_updAssoc he with he' | he'
          · exact h e he'
          · rw [he']
            exact ⟨h0, hself⟩
        · rw [show dedupStep acc pkg = acc by simp [dedupStep, h0, hacc, hv]] at he
          exact h e he

theorem foldl_dedupStep_filter (pkgs : List FieldMap) (acc : PkgIndex) :
    pkgs.foldl dedupStep acc
      = (pkgs.filter fun p => !(decide (getD p pkgF [] = []))).foldl dedupStep acc := by
  induction pkgs generalizing acc with
  | nil => rfl
  | cons pkg rest ih =>
    rw [List.foldl_cons, List.filter_cons]
    by_cases h : getD pkg pkgF [] = []
    · have hstep : dedupStep acc pkg = acc := by simp [dedupStep, h]
      rw [hstep, if_neg (by simp [h])]
      exact ih acc
    · rw [if_pos (by simp [h]), List.foldl_cons]
      exact ih (dedupStep acc pkg)

/-! ## First-maximum lemmas -/

theorem foldl_pickMax_some (t : List FieldMap) (w0 w : FieldMap)
    (h : t.foldl pickMax (some w0) = some w) :
    (w = w0 ∧ ∀ p ∈ t, getD p verF [] ≤ getD w0 verF [])
    ∨ (getD w0 verF [] < getD w verF [] ∧ ∃ t₁ t₂, t = t₁ ++ w :: t₂
        ∧ (∀ p ∈ t₁, getD p verF [] < getD w verF [])
        ∧ (∀ p ∈ t₂, getD p verF [] ≤ getD w verF [])) := by
  induction t generalizing w0 with
  | nil =>
    left
    rw [List.foldl_nil] at h
    injection h with h'
    exact ⟨h'.symm, by simp⟩
  | cons p t ih =>
    rw [List.foldl_cons] at h
    by_cases hlt : getD w0 verF [] < getD p verF []
    · rw [show pickMax (some w0) p = some p by simp [pickMax, hlt]] at h
      rcases ih p h with ⟨rfl, hall⟩ | ⟨hlt2, t₁, t₂, heq, h1, h2⟩
      · right
        exact ⟨hlt, [], t, rfl, by simp, hall⟩
      · right
        refine ⟨lt_trans hlt hlt2, p :: t₁, t₂, by rw [heq, List.cons_append], ?_, h2⟩
        intro q hq
        rcases List.mem_cons.mp hq with rfl | hq'
        · exact hlt2
        · exact h1 q hq'
    · rw [show pickMax (some w0) p = some w0 by simp [pickMax, hlt]] at h
      rcases ih w0 h with ⟨rfl, hall⟩ | ⟨hlt2, t₁, t₂, heq, h1, h2⟩
      · left
        refine ⟨rfl, ?_⟩
        intro q hq
        rcases List.mem_cons.mp hq with rfl | hq'
        · exact not_lt.mp hlt
        · exact hall q hq'
      · right
        refine ⟨hlt2, p :: t₁, t₂, by rw [heq, List.cons_append], ?_, h2⟩
        intro q hq
        rcases List.mem_cons.mp hq with rfl | hq'
        · exact lt_of_le_of_lt (not_lt.mp hlt) hlt2
        · exact h1 q hq'

theorem firstMax_decomp (l : List FieldMap) (w : FieldMap) (h : firstMax l = some w) :
    ∃ l₁ l₂, l = l₁ ++ w :: l₂
      ∧ (∀ p ∈ l₁, getD p verF [] < getD w verF [])
      ∧ (∀ p ∈ l₂, getD p verF [] ≤ getD w verF []) := by
  cases l with
  | nil => exact absurd h (by simp [firstMax])
  | cons p t =>
    rw [firstMax, List.foldl_cons, show pickMax none p = some p from rfl] at h
    rcases foldl_pickMax_some t p w h with ⟨rfl, hall⟩ | ⟨hlt2, t₁, t₂, heq, h1, h2⟩
    · exact ⟨[], t, rfl, by simp, hall⟩
    · refine ⟨p :: t₁, t₂, by rw [heq, List.cons_append], ?_, h2⟩
      intro q hq
      rcases List.mem_cons.mp hq with rfl | hq'
      · exact hlt2
      · exact h1 q hq'

theorem foldl_pickMax_isSome (t : List FieldMap) (w0 : FieldMap) :
    (t.foldl pickMax (some w0)).isSome := by
  induction t generalizing w0 with
  | nil => rfl
  | cons p t ih =>
    rw [List.foldl_cons]
    by_cases hlt : getD w0 verF [] < getD p verF []
    · rw [show pickMax (some w0) p = some p by simp [pickMax, hlt]]
      exact ih p
    · rw [show pickMax (some w0) p = some w0 by simp [pickMax, hlt]]
      exact ih w0

theorem firstMax_isSome (l : List FieldMap) (h : l ≠ []) : (firstMax l).isSome := by
  cases l with
  | nil => exact absurd rfl h
  | cons p t =>
    rw [firstMax, List.foldl_cons, show pickMax none p = some p from rfl]
    exact foldl_pickMax_isSome t p

theorem find?_first_of_max (l₁ l₂ : List FieldMap) (w : FieldMap)
    (h1 : ∀ p ∈ l₁, getD p verF [] < getD w verF []) :
    (l₁ ++ w :: l₂).find? (fun p => decide (getD p verF [] = getD w verF [])) = some w := by
  induction l₁ with
  | nil => simp [List.find?]
  | cons p t ih =>
    have hne : getD p verF [] ≠ getD w verF [] :=
      ne_of_lt (h1 p (List.mem_cons_self _ _))
    rw [List.cons_append, List.find?_cons_of_neg _ (by simp [hne])]
    exact ih fun q hq => h1 q (List.mem_cons_of_mem _ hq)

/-! ## String-stripping lemmas -/

theorem contains_eq_false_iff (l : Str) (c : Char) : l.contains c = false ↔ c ∉ l := by
  simp [List.contains]

theorem pyStrip_length_le (l : Str) : (pyStrip l).length ≤ l.length := by
  have h1 := congrArg List.length (List.takeWhile_append_dropWhile isWS l)
  have h2 := congrArg List.length
    (List.takeWhile_append_dropWhile isWS (l.dropWhile isWS).reverse)
  rw [List.length_append] at h1 h2
  simp only [List.length_reverse] at h2
  simp only [pyStrip, List.length_reverse]
  omega

theorem pyStrip_cons_ws (c : Char) (l : Str) (h : isWS c = true) :
    pyStrip (c :: l) = pyStrip l := by
  simp [pyStrip, List.dropWhile_cons, h]

theorem pyStrip_eq_nil_iff (l : Str) : pyStrip l = [] ↔ ∀ c ∈ l, isWS c = true := by
  constructor
  · intro h c hc
    simp only [pyStrip, List.reverse_eq_nil_iff] at h
    rw [List.dropWhile_eq_nil_iff] at h
    have hsplit := List.takeWhile_append_dropWhile isWS l
    rw [← hsplit] at hc
    rcases List.mem_append.mp hc with hc' | hc'
    · exact List.mem_takeWhile_imp hc'
    · exact h c (List.mem_reverse.mpr hc')
  · intro h
    simp only [pyStrip, List.reverse_eq_nil_iff]
    rw [List.dropWhile_eq_nil_iff]
    intro c hc
    refine h c ?_
    have := List.dropWhile_sublist (l := l) (p := isWS)
    exact this.mem (List.mem_reverse.mp hc)

theorem pyStrip_ne_nil (l : Str) (c : Char) (hc : c ∈ l) (h : isWS c = false) :
    pyStrip l ≠ [] := by
  intro he
  have := (pyStrip_eq_nil_iff l).mp he c hc
  rw [this] at h
  exact Bool.noConfusion h

theorem head_not_ws_of_strip_self (c : Char) (l : Str)
    (h : pyStrip (c :: l) = c :: l) : isWS c = false := by
  by_contra hw
  rw [Bool.not_eq_false] at hw
  have h1 := pyStrip_cons_ws c l hw
  have h2 := pyStrip_length_le l
  rw [h] at h1
  have h3 := congrArg List.length h1
  rw [List.length_cons] at h3
  omega

/-! ## Line-splitting lemmas -/

theorem splitLines_no_newline (l : Str) (h : '\n' ∉ l) : splitLines l = [l] := by
  induction l with
  | nil => rfl
  | cons c rest ih =>
    have hc : c ≠ '\n' := fun he => h (he ▸ List.mem_cons_self _ _)
    have hr : '\n' ∉ rest := fun hm => h (List.mem_cons_of_mem _ hm)
    simp only [splitLines, if_neg hc, ih hr]

theorem splitLines_append (l r : Str) (h : '\n' ∉ l) :
    splitLines (l ++ '\n' :: r) = l :: splitLines r := by
  induction l with
  | nil => simp [splitLines]
  | cons c rest ih =>
    have hc : c ≠ '\n' := fun he => h (he ▸ List.mem_cons_self _ _)
    have hr : '\n' ∉ rest := fun hm => h (List.mem_cons_of_mem _ hm)
    rw [List.cons_append]
    simp only [splitLines, if_neg hc, ih hr]

theorem splitLines_joinNl (ls : List Str) (hne : ls ≠ [])
    (h : ∀ l ∈ ls, '\n' ∉ l) : splitLines (joinNl ls) = ls := by
  induction ls with
  | nil => exact absurd rfl hne
  | cons l rest ih =>
    cases rest with
    | nil =>
      rw [show joinNl [l] = l from rfl]
      exact splitLines_no_newline l (h l (List.mem_cons_self _ _))
    | cons l' rest' =>
      rw [show joinNl (l :: l' :: rest') = l ++ '\n' :: joinNl (l' :: rest') from rfl]
      rw [splitLines_append l _ (h l (List.mem_cons_self _ _))]
      rw [ih (by simp) fun a ha => h a (List.mem_cons_of_mem _ ha)]

/-! ## Field-setting lemmas -/

theorem setField_lookup_self (m : FieldMap) (k v : Str) :
    alookup (setField m k v) k = some v := by
  unfold setField
  cases h : alookup m k with
  | none => simp [alookup_append, h, alookup]
  | some w => exact alookup_updAssoc_self m k v (by simp [h])

theorem updAssoc_ne_nil {α : Type} (m : List (Str × α)) (k : Str) (w : α)
    (h : m ≠ []) : updAssoc m k w ≠ [] := by
  cases m with
  | nil => exact absurd rfl h
  | cons hd tl =>
    obtain ⟨k', v⟩ := hd
    by_cases h' : k' = k <;> simp [updAssoc, h']

theorem setField_ne_nil (m : FieldMap) (k v : Str) : setField m k v ≠ [] := by
  unfold setField
  cases h : alookup m k with
  | none => simp
  | some w =>
    refine updAssoc_ne_nil m k v ?_
    intro he
    rw [he] at h
    exact Option.noConfusion h

/-! ## Parser step lemmas -/

theorem parseLine_blank (st : PState) (h : st.cur ≠ []) :
    parseLine st [] = ⟨st.acc ++ [st.cur], [], none⟩ := by
  simp [parseLine, pyStrip, h]

theorem contains_eq_true_iff (l : Str) (c : Char) : l.contains c = true ↔ c ∈ l := by
  simp [List.contains]

theorem split_at_colon (k v : Str) (hk : ∀ c ∈ k, c ≠ ':') :
    (k ++ ':' :: v).takeWhile (fun c => c != ':') = k
    ∧ (k ++ ':' :: v).dropWhile (fun c => c != ':') = ':' :: v := by
  induction k with
  | nil => constructor <;> simp
  | cons c t ih =>
    have hc : (c != ':') = true := by
      simpa using hk c (List.mem_cons_self _ _)
    obtain ⟨ih1, ih2⟩ := ih fun a ha => hk a (List.mem_cons_of_mem _ ha)
    constructor
    · rw [List.cons_append, List.takeWhile_cons, hc]
      simp [ih1]
    · rw [List.cons_append, List.dropWhile_cons, hc]
      simpa using ih2

theorem parseLine_fld (st : PState) (k v : Str) (hw : wfItem (.fld k v)) :
    parseLine st (renderItem (.fld k v))
      = { st with cur := setField st.cur k v, curField := some k } := by
  obtain ⟨hks, hkne, hkc, _, hvs, _⟩ := hw
  have hcolon : (':' : Char) ∈ k ++ ':' :: v :=
    List.mem_append.mpr (Or.inr (List.mem_cons_self _ _))
  have hblank : pyStrip (k ++ ':' :: v) ≠ [] :=
    pyStrip_ne_nil _ ':' hcolon (by decide)
  have hnocolon : ∀ c ∈ k, c ≠ ':' := by
    intro c hc he
    rw [contains_eq_false_iff] at hkc
    exact hkc (he ▸ hc)
  have hsplit := split_at_colon k v hnocolon
  cases k with
  | nil => exact absurd rfl hkne
  | cons c k' =>
    have hcws : isWS c = false := head_not_ws_of_strip_self c k' hks
    have hhead : ((c == ' ' || c == '\t') = false) := by
      revert hcws
      simp [isWS]
      tauto
    show parseLine st (c :: (k' ++ ':' :: v)) = _
    rw [parseLine]
    rw [if_neg (by rw [← List.cons_append]; exact hblank)]
    rw [if_neg (show ¬ ((c == ' ' || c == '\t') = true) by simp [hhead])]
    rw [if_pos (show (c :: (k' ++ ':' :: v)).contains ':' = true by
      rw [contains_eq_true_iff, ← List.cons_append]; exact hcolon)]
    rw [show (c :: (k' ++ ':' :: v) : Str) = (c :: k') ++ ':' :: v from rfl,
      hsplit.1, hsplit.2]
    rw [show (':' :: v).tail = v from rfl, hks, hvs]

theorem parseLine_cont (st : PState) (c : Str) (hw : wfItem (.cont c))
    (f : Str) (hcf : st.curField = some f) (hf : f ≠ [])
    (hlk : (alookup st.cur f).isSome = true) :
    parseLine st (renderItem (.cont c))
      = { st with cur := updAssoc st.cur f (((alookup st.cur f).getD []) ++ ' ' :: c) } := by
  obtain ⟨hcs, hcne, _⟩ := hw
  have hstrip : pyStrip (' ' :: c) = c := by
    rw [pyStrip_cons_ws ' ' c (by decide), hcs]
  show parseLine st (' ' :: c) = _
  rw [parseLine]
  rw [if_neg (by rw [hstrip]; exact hcne)]
  rw [if_pos (show ((' ' == ' ' || ' ' == '\t') = true) by decide), hcf]
  simp [hf, hlk, hstrip]

/-! ## Stanza-level parsing lemmas -/

theorem foldl_parseLine_items (its : List Item) :
    ∀ (acc : List FieldMap) (m : FieldMap) (f : Str),
      (∀ it ∈ its, wfItem it) →
      f ≠ [] → (alookup m f).isSome = true → m ≠ [] →
      (its.map renderItem).foldl parseLine ⟨acc, m, some f⟩
        = ⟨acc, evalItems m (some f) its, some (lastField f its)⟩
      ∧ lastField f its ≠ []
      ∧ (alookup (evalItems m (some f) its) (lastField f its)).isSome = true
      ∧ evalItems m (some f) its ≠ [] := by
  induction its with
  | nil =>
    intro acc m f _ hf hlk hm
    exact ⟨rfl, hf, hlk, hm⟩
  | cons it rest ih =>
    intro acc m f hwf hf hlk hm
    have hit := hwf it (List.mem_cons_self _ _)
    have hrest : ∀ x ∈ rest, wfItem x := fun x hx => hwf x (List.mem_cons_of_mem _ hx)
    cases it with
    | fld k v =>
      have hkne : k ≠ [] := hit.2.1
      rw [List.map_cons, List.foldl_cons, parseLine_fld _ k v hit]
      have hstep := ih acc (setField m k v) k hrest hkne
        (by rw [setField_lookup_self]; rfl) (setField_ne_nil m k v)
      exact hstep
    | cont c =>
      rw [List.map_cons, List.foldl_cons, parseLine_cont _ c hit f rfl hf hlk]
      have hstep := ih acc (updAssoc m f (((alookup m f).getD []) ++ ' ' :: c)) f hrest hf
        (by rw [alookup_updAssoc_self m f _ hlk]; rfl)
        (updAssoc_ne_nil m f _ hm)
      exact hstep

theorem foldl_parseLine_stanza (items : List Item) (h : wfStanza items)
    (acc : List FieldMap) :
    ∃ g, (items.map renderItem).foldl parseLine ⟨acc, [], none⟩
        = ⟨acc, evalStanza items, some g⟩ ∧ evalStanza items ≠ [] := by
  obtain ⟨hne, hhead, hwf⟩ := h
  cases items with
  | nil => exact absurd rfl hne
  | cons it rest =>
    cases it with
    | cont c => exact absurd hhead (by simp [headIsField])
    | fld k v =>
      have hit := hwf _ (List.mem_cons_self _ _)
      have hkne : k ≠ [] := hit.2.1
      rw [List.map_cons, List.foldl_cons, parseLine_fld _ k v hit]
      have hstep := foldl_parseLine_items rest acc (setField [] k v) k
        (fun x hx => hwf x (List.mem_cons_of_mem _ hx)) hkne
        (by rw [setField_lookup_self]; rfl) (setField_ne_nil [] k v)
      exact ⟨lastField k rest, hstep.1, hstep.2.2.2⟩

/-! ## Rendering lemmas -/

theorem renderLines_singleton (s : List Item) :
    renderLines [s] = s.map renderItem := by
  simp [renderLines, renderStanzaLines]

theorem renderLines_cons_cons (a b : List Item) (t : List (List Item)) :
    renderLines (a :: b :: t) = a.map renderItem ++ [] :: renderLines (b :: t) := by
  simp only [renderLines, List.map_cons, List.intersperse_cons_cons, List.flatten_cons]
  rfl

theorem renderItem_no_newline (it : Item) (h : wfItem it) : '\n' ∉ renderItem it := by
  cases it with
  | fld k v =>
    obtain ⟨_, _, _, hkn, _, hvn⟩ := h
    rw [contains_eq_false_iff] at hkn hvn
    intro hmem
    rcases List.mem_append.mp hmem with hm | hm
    · exact hkn hm
    · rcases List.mem_cons.mp hm with he | hm'
      · exact absurd he (by decide)
      · exact hvn hm'
  | cont c =>
    obtain ⟨_, _, hcn⟩ := h
    rw [contains_eq_false_iff] at hcn
    intro hmem
    rcases List.mem_cons.mp hmem with he | hm'
    · exact absurd he (by decide)
    · exact hcn hm'

theorem renderLines_no_newline (stanzas : List (List Item))
    (h : ∀ st ∈ stanzas, wfStanza st) :
    ∀ l ∈ renderLines stanzas, '\n' ∉ l := by
  induction stanzas with
  | nil => simp [renderLines]
  | cons s rest ih =>
    cases rest with
    | nil =>
      rw [renderLines_singleton]
      intro l hl
      obtain ⟨it, hit, rfl⟩ := List.mem_map.mp hl
      exact renderItem_no_newline it ((h s (List.mem_cons_self _ _)).2.2 it hit)
    | cons s' rest' =>
      rw [renderLines_cons_cons]
      intro l hl
      rcases List.mem_append.mp hl with hm | hm
      · obtain ⟨it, hit, rfl⟩ := List.mem_map.mp hm
        exact renderItem_no_newline it ((h s (List.mem_cons_self _ _)).2.2 it hit)
      · rcases List.mem_cons.mp hm with rfl | hm'
        · simp
        · exact ih (fun st hst => h st (List.mem_cons_of_mem _ hst)) l hm'

theorem renderLines_ne_nil (stanzas : List (List Item))
    (h : ∀ st ∈ stanzas, wfStanza st) (hne : stanzas ≠ []) :
    renderLines stanzas ≠ [] := by
  cases stanzas with
  | nil => exact absurd rfl hne
  | cons s rest =>
    have hs : s ≠ [] := (h s (List.mem_cons_self _ _)).1
    cases rest with
    | nil =>
      rw [renderLines_singleton]
      simpa using hs
    | cons s' rest' =>
      rw [renderLines_cons_cons]
      intro he
      rcases List.append_eq_nil.mp he with ⟨h1, h2⟩
      exact List.cons_ne_nil _ _ h2

/-! ## Whole-input parsing lemma -/

theorem flush_foldl_renderLines (stanzas : List (List Item)) :
    ∀ (acc : List FieldMap), (∀ st ∈ stanzas, wfStanza st) → stanzas ≠ [] →
      (fun st : PState => if st.cur ≠ [] then st.acc ++ [st.cur] else st.acc)
        ((renderLines stanzas).foldl parseLine ⟨acc, [], none⟩)
      = acc ++ stanzas.map evalStanza := by
  induction stanzas with
  | nil =>
    intro _ _ hne
    exact absurd rfl hne
  | cons s rest ih =>
    intro acc hwf _
    have hs := hwf s (List.mem_cons_self _ _)
    obtain ⟨g, hfold, hne'⟩ := foldl_parseLine_stanza s hs acc
    cases rest with
    | nil =>
      rw [renderLines_singleton, hfold]
      simp [hne']
    | cons s' rest' =>
      rw [renderLines_cons_cons, List.foldl_append, hfold, List.foldl_cons,
        parseLine_blank _ hne']
      rw [ih (acc ++ [evalStanza s]) (fun st hst => hwf st (List.mem_cons_of_mem _ hst))
        (by simp)]
      simp

/-! ## Claim theorems -/

/-- C2: running the diff twice in sequence over the same current package list
and the same (un-updated) baseline yields an identical change feed from both
calls, and the ledger mapping after the second call equals the ledger mapping
after the first: the second call adds, removes, and changes no entries. -/
theorem C2_diff_idempotent (current : List FieldMap) (previous : Baseline)
    (led : Ledger) (now1 now2 : Str) :
    compare_packages current previous
        (compare_packages current previous led now1).2 now2
      = compare_packages current previous led now1 := by
  simp only [compare_packages, compareLoop_idem]

/-- C3: once a timestamp has been stored under a change key it is never
overwritten: a diff run started from any ledger already holding `k ↦ t`
still holds `k ↦ t` afterwards, and every change record whose change key is
`k` carries exactly `t` as its `detected_at`. -/
theorem C3_ledger_write_once (current : List FieldMap) (previous : Baseline)
    (led : Ledger) (now k t : Str) (h : alookup led k = some t) :
    alookup (compare_packages current previous led now).2 k = some t
    ∧ ∀ r ∈ (compare_packages current previous led now).1,
        pkgKey r.fields = k → r.detected_at = t := by
  constructor
  · exact compareLoop_ledger_preserves previous now current led k t h
  · intro r hr hk
    have hs : r ∈ sortDescBy (fun c : ChangeRec => c.detected_at)
        ((compareLoop previous now current led).1
          ++ (compareLoop previous now current led).2.1) := hr
    exact compareLoop_detected_of_found previous now current led k t h r
      ((mem_sortDescBy _ r _).mp hs) hk

theorem C3_ledger_write_once_witness :
    alookup (compare_packages [[(pkgF, "a".data), (verF, "1".data)]] []
        [("a:1".data, "T0".data)] "T1".data).2 "a:1".data = some ("T0".data) :=
  (C3_ledger_write_once [[(pkgF, "a".data), (verF, "1".data)]] []
    [("a:1".data, "T0".data)] "T1".data "a:1".data "T0".data (by decide)).1

/-- C5 (counterexample): the claim that equal-timestamp records appear in the
feed in the order they were produced while iterating the current index is
false.  Here the baseline holds `a@0`, the current index is `[a@1, b@1]`, and
both change keys already carry the same ledger timestamp `T`.  Iteration
produces the record for `a` (Updated) before the record for `b` (New), yet
the returned feed lists `b` before `a`, because the code concatenates the new
list before the updated list prior to the stable sort. -/
theorem C5_tie_order_counterexample :
    ((compare_packages
        [[(pkgF, "a".data), (verF, "1".data)], [(pkgF, "b".data), (verF, "1".data)]]
        [("a".data, "0".data)]
        [("a:1".data, "T".data), ("b:1".data, "T".data)] "T2".data).1.map
          fun r => getD r.fields pkgF [])
      = ["b".data, "a".data]
    ∧ ((compare_packages
        [[(pkgF, "a".data), (verF, "1".data)], [(pkgF, "b".data), (verF, "1".data)]]
        [("a".data, "0".data)]
        [("a:1".data, "T".data), ("b:1".data, "T".data)] "T2".data).1.map
          fun r => r.detected_at)
      = ["T".data, "T".data]
    ∧ (["b".data, "a".data] : List Str) ≠ ["a".data, "b".data] := by
  decide

/-- C5 (amended): whenever two change records share the same `detected_at`
timestamp, their relative order in the returned feed is their relative order
in the concatenation of the new-records list followed by the updated-records
list (each in iteration order): for every timestamp `t`, filtering the feed
at `t` yields exactly the `new ++ updated` records at `t`, in that order.  In
particular a New record precedes an Updated record with the same timestamp,
regardless of iteration order; only records of the same kind keep their
iteration order. -/
theorem C5_tie_order_amended (current : List FieldMap) (previous : Baseline)
    (led : Ledger) (now t : Str) :
    (compare_packages current previous led now).1.filter
        (fun r => r.detected_at == t)
      = ((compareLoop previous now current led).1
          ++ (compareLoop previous now current led).2.1).filter
          (fun r => r.detected_at == t) :=
  filter_sortDescBy (fun c : ChangeRec => c.detected_at) _ t

/-- C7: contrary to the claim, a record whose `Size` field is non-numeric
makes `get_package_summary` raise.  The record does enter the index and
contributes `0` to the aggregate size, but the largest-by-size sort applies
the bare `int(...)` to every winner's `Size`, so `"abc"` raises `ValueError`
(the `none` summary below) instead of sorting as zero; the ledger write has
already happened by then. -/
theorem C7_nonnumeric_size_raises :
    get_package_summary [[(pkgF, "a".data), (verF, "1".data), (sizeF, "abc".data)]]
        true [] [] "t".data
      = (none, [("a:1".data, "t".data)]) := by
  decide

/-- C9: when the persisted baseline is absent (`none`), empty (whitespace-only
content), or unparsable (the JSON decoder fails), loading returns the empty
name-to-version map rather than failing; and a diff against the empty
baseline classifies every package in the current list as New: the feed has
one record per package and every record's kind is `new`. -/
theorem C9_missing_baseline_empty (jsonParse : Str → Option StateObj)
    (version component content : Str) (current : List FieldMap)
    (led : Ledger) (now : Str) :
    load_previous_packages none jsonParse version component = []
    ∧ (pyStrip content = [] →
        load_previous_packages (some content) jsonParse version component = [])
    ∧ (jsonParse content = none →
        load_previous_packages (some content) jsonParse version component = [])
    ∧ (compare_packages current [] led now).1.length = current.length
    ∧ ∀ r ∈ (compare_packages current [] led now).1, r.change_type = newCT := by
  refine ⟨rfl, ?_, ?_, ?_, ?_⟩
  · intro h
    simp [load_previous_packages, h]
  · intro h
    by_cases hs : pyStrip content = []
    · simp [load_previous_packages, hs]
    · simp [load_previous_packages, hs, h]
  · have hnil := compareLoop_nil_baseline now current led
    show (sortDescBy (fun c => c.detected_at)
        ((compareLoop [] now current led).1 ++ (compareLoop [] now current led).2.1)).length
      = current.length
    rw [length_sortDescBy, List.length_append, hnil.1]
    simp [hnil.2]
  · intro r hr
    have hs : r ∈ sortDescBy (fun c : ChangeRec => c.detected_at)
        ((compareLoop [] now current led).1 ++ (compareLoop [] now current led).2.1) := hr
    rcases List.mem_append.mp ((mem_sortDescBy _ r _).mp hs) with hm | hm
    · exact ((compareLoop_shape [] now current led).1 r hm).1
    · rw [(compareLoop_nil_baseline now current led).1] at hm
      cases hm

/-- C1: over a deduplicated current index (pairwise-distinct names), the diff
produces, for each package: exactly one New record (with no previous version)
when its name is absent from the baseline; exactly one Updated record carrying
the baseline version as `previous_version` when the baseline version differs;
and no record at all when the version strings agree.  In the first two cases
the record counted by name alone is also exactly one, so no spurious records
for that name of any other kind exist. -/
theorem C1_diff_completeness (current : List FieldMap) (previous : Baseline)
    (led : Ledger) (now : Str)
    (hnd : (current.map fun p => getD p pkgF []).Nodup) :
    ∀ pkg ∈ current,
      (alookup previous (getD pkg pkgF []) = none →
        (compare_packages current previous led now).1.countP
            (fun r => ((getD r.fields pkgF [] == getD pkg pkgF [])
              && (r.change_type == newCT)) && (r.previous_version == none)) = 1
        ∧ (compare_packages current previous led now).1.countP
            (fun r => getD r.fields pkgF [] == getD pkg pkgF []) = 1)
      ∧ (∀ pv, alookup previous (getD pkg pkgF []) = some pv →
          pv ≠ getD pkg verF [] →
          (compare_packages current previous led now).1.countP
            (fun r => ((getD r.fields pkgF [] == getD pkg pkgF [])
              && (r.change_type == updatedCT)) && (r.previous_version == some pv)) = 1
          ∧ (compare_packages current previous led now).1.countP
            (fun r => getD r.fields pkgF [] == getD pkg pkgF []) = 1)
      ∧ (∀ pv, alookup previous (getD pkg pkgF []) = some pv →
          pv = getD pkg verF [] →
          (compare_packages current previous led now).1.countP
            (fun r => getD r.fields pkgF [] == getD pkg pkgF []) = 0) := by
  have hsort : ∀ p : ChangeRec → Bool,
      (compare_packages current previous led now).1.countP p
        = ((compareLoop previous now current led).1
            ++ (compareLoop previous now current led).2.1).countP p := by
    intro p
    show (sortDescBy (fun c : ChangeRec => c.detected_at)
        ((compareLoop previous now current led).1
          ++ (compareLoop previous now current led).2.1)).countP p = _
    exact countP_sortDescBy _ _ p
  intro pkg hmem
  have hnamecount : (compare_packages current previous led now).1.countP
      (fun r => getD r.fields pkgF [] == getD pkg pkgF [])
      = if (diffCase previous pkg).isSome then 1 else 0 := by
    have hc := compareLoop_countP previous now
      (fun r => getD r.fields pkgF [] == getD pkg pkgF [])
      (fun _ _ _ _ _ => rfl) current led
    rw [hsort, hc]
    have hfun : (fun pkg' =>
        match diffCase previous pkg' with
        | none => false
        | some none => getD pkg' pkgF [] == getD pkg pkgF []
        | some (some pv') => getD pkg' pkgF [] == getD pkg pkgF [])
        = fun y => (getD y pkgF [] == getD pkg pkgF [])
            && (diffCase previous y).isSome := by
      funext y
      cases hd : diffCase previous y with
      | none =>
        simp only [hd]
        cases (getD y pkgF [] == getD pkg pkgF []) <;> rfl
      | some o =>
        cases o with
        | none =>
          simp only [hd]
          cases (getD y pkgF [] == getD pkg pkgF []) <;> rfl
        | some pv' =>
          simp only [hd]
          cases (getD y pkgF [] == getD pkg pkgF []) <;> rfl
    rw [hfun,
      countP_eq_single (fun p => getD p pkgF []) _ current pkg hnd hmem]
  refine ⟨?_, ?_, ?_⟩
  · intro halook
    have hdc : diffCase previous pkg = some none := by
      simp [diffCase, halook]
    constructor
    · have hc := compareLoop_countP previous now
        (fun r => ((getD r.fields pkgF [] == getD pkg pkgF [])
          && (r.change_type == newCT)) && (r.previous_version == none))
        (fun _ _ _ _ _ => rfl) current led
      rw [hsort, hc]
      have hfun : (fun pkg' =>
          match diffCase previous pkg' with
          | none => false
          | some none =>
            ((getD pkg' pkgF [] == getD pkg pkgF []) && (newCT == newCT))
              && ((none : Option Str) == none)
          | some (some pv') =>
            ((getD pkg' pkgF [] == getD pkg pkgF []) && (updatedCT == newCT))
              && (some pv' == (none : Option Str)))
          = fun y => (getD y pkgF [] == getD pkg pkgF [])
              && (diffCase previous y == some none) := by
        funext y
        cases hd : diffCase previous y with
        | none =>
          simp only [hd]
          cases (getD y pkgF [] == getD pkg pkgF []) <;> rfl
        | some o =>
          cases o with
          | none =>
            simp only [hd]
            cases (getD y pkgF [] == getD pkg pkgF []) <;> rfl
          | some pv' =>
            simp only [hd]
            cases (getD y pkgF [] == getD pkg pkgF []) <;> rfl
      rw [hfun,
        countP_eq_single (fun p => getD p pkgF []) _ current pkg hnd hmem, hdc]
      rfl
    · rw [hnamecount, hdc]
      rfl
  · intro pv halook hvne
    have hdc : diffCase previous pkg = some (some pv) := by
      simp [diffCase, halook, hvne]
    constructor
    · have hc := compareLoop_countP previous now
        (fun r => ((getD r.fields pkgF [] == getD pkg pkgF [])
          && (r.change_type == updatedCT)) && (r.previous_version == some pv))
        (fun _ _ _ _ _ => rfl) current led
      rw [hsort, hc]
      have hfun : (fun pkg' =>
          match diffCase previous pkg' with
          | none => false
          | some none =>
            ((getD pkg' pkgF [] == getD pkg pkgF []) && (newCT == updatedCT))
              && ((none : Option Str) == some pv)
          | some (some pv') =>
            ((getD pkg' pkgF [] == getD pkg pkgF []) && (updatedCT == updatedCT))
              && (some pv' == some pv))
          = fun y => (getD y pkgF [] == getD pkg pkgF [])
              && (match diffCase previous y with
                  | some (some pv') => pv' == pv
                  | _ => false) := by
        funext y
        cases hd : diffCase previous y with
        | none =>
          simp only [hd]
          cases (getD y pkgF [] == getD pkg pkgF []) <;> rfl
        | some o =>
          cases o with
          | none =>
            simp only [hd]
            cases (getD y pkgF [] == getD pkg pkgF []) <;> rfl
          | some pv' =>
            simp only [hd]
            rw [show ((some pv' == some pv) : Bool) = (pv' == pv) from rfl]
            cases (getD y pkgF [] == getD pkg pkgF []) <;>
              cases (pv' == pv) <;> rfl
      rw [hfun,
        countP_eq_single (fun p => getD p pkgF []) _ current pkg hnd hmem, hdc]
      simp
    · rw [hnamecount, hdc]
      rfl
  · intro pv halook hveq
    have hdc : diffCase previous pkg = none := by
      simp [diffCase, halook, hveq]
    rw [hnamecount, hdc]
    rfl

theorem C1_diff_completeness_witness :
    (compare_packages
        [[(pkgF, "a".data), (verF, "1".data)], [(pkgF, "b".data), (verF, "2".data)]]
        [("a".data, "0".data)] [] "t".data).1.countP
      (fun r => ((getD r.fields pkgF [] == getD [((pkgF : Str), ("a".data : Str)),
            (verF, "1".data)] pkgF []) && (r.change_type == updatedCT))
        && (r.previous_version == some ("0".data))) = 1 :=
  ((C1_diff_completeness
      [[(pkgF, "a".data), (verF, "1".data)], [(pkgF, "b".data), (verF, "2".data)]]
      [("a".data, "0".data)] [] "t".data (by decide)
      [(pkgF, "a".data), (verF, "1".data)] (by decide)).2.1 "0".data
    (by decide) (by decide)).1

theorem C9_missing_baseline_empty_witness :
    load_previous_packages (some "  ".data) (fun _ => none) "v".data "c".data = [] :=
  (C9_missing_baseline_empty (fun _ => none) "v".data "c".data "  ".data [] [] "t".data).2.1
    (by decide)

/-- C6: for every input batch, the deduplicated index has pairwise-distinct
names (exactly one winning record per name); every record with a non-empty
name has a winner under its name; and each winner is itself a candidate for
its name whose `Version` string is lexicographically greater than or equal to
every candidate's, with the first candidate attaining that maximal version
being the winner itself — so on a tie the earlier record in input order is
kept, and replacement happens only for a strictly greater version. -/
theorem C6_dedup_invariant (pkgs : List FieldMap) :
    ((uniquePackages pkgs).map Prod.fst).Nodup
    ∧ (∀ p ∈ pkgs, getD p pkgF [] ≠ [] →
        (alookup (uniquePackages pkgs) (getD p pkgF [])).isSome = true)
    ∧ ∀ n, n ≠ ([] : Str) → ∀ w, alookup (uniquePackages pkgs) n = some w →
        w ∈ pkgs.filter (fun p => decide (getD p pkgF [] = n))
        ∧ (∀ p ∈ pkgs, getD p pkgF [] = n → getD p verF [] ≤ getD w verF [])
        ∧ (pkgs.filter fun p => decide (getD p pkgF [] = n)).find?
            (fun p => decide (getD p verF [] = getD w verF [])) = some w := by
  refine ⟨foldl_dedupStep_nodup pkgs [] (by simp), ?_, ?_⟩
  · intro p hp hne
    rw [uniquePackages_alookup pkgs _ hne]
    refine firstMax_isSome _ ?_
    intro hnil
    have : p ∈ pkgs.filter fun q => decide (getD q pkgF [] = getD p pkgF []) :=
      List.mem_filter.mpr ⟨hp, by simp⟩
    rw [hnil] at this
    cases this
  · intro n hn w hw
    rw [uniquePackages_alookup pkgs n hn] at hw
    obtain ⟨l₁, l₂, heq, h1, h2⟩ := firstMax_decomp _ w hw
    refine ⟨?_, ?_, ?_⟩
    · rw [heq]
      exact List.mem_append.mpr (Or.inr (List.mem_cons_self _ _))
    · intro p hp hpn
      have hmem : p ∈ pkgs.filter fun q => decide (getD q pkgF [] = n) :=
        List.mem_filter.mpr ⟨hp, by simp [hpn]⟩
      rw [heq] at hmem
      rcases List.mem_append.mp hmem with hm | hm
      · exact le_of_lt (h1 p hm)
      · rcases List.mem_cons.mp hm with rfl | hm'
        · exact le_refl _
        · exact h2 p hm'
    · rw [heq]
      exact find?_first_of_max l₁ l₂ w h1

theorem C6_dedup_invariant_witness :
    ([[(pkgF, "a".data), (verF, "2".data)], [(pkgF, "a".data), (verF, "10".data)],
        [(pkgF, "b".data), (verF, "1".data)]].filter
      fun p => decide (getD p pkgF [] = "a".data)).find?
        (fun p => decide (getD p verF []
          = getD [((pkgF : Str), ("a".data : Str)), (verF, "2".data)] verF []))
      = some [(pkgF, "a".data), (verF, "2".data)] :=
  ((C6_dedup_invariant
      [[(pkgF, "a".data), (verF, "2".data)], [(pkgF, "a".data), (verF, "10".data)],
        [(pkgF, "b".data), (verF, "1".data)]]).2.2 "a".data (by decide)
    [(pkgF, "a".data), (verF, "2".data)] (by decide)).2.2

/-- C4: whenever `get_package_summary` returns a summary, its change feed is
sorted by `detected_at` in descending order, never has more than 30 entries,
and (when a scope is given and the batch is non-empty) has exactly
`min`(number of generated changes, 30) entries — so more than 30 generated
changes yield exactly 30. -/
theorem C4_cap_and_order (packages : List FieldMap) (hasScope : Bool)
    (previous : Baseline) (led : Ledger) (now : Str) (s : Summary) (led' : Ledger)
    (h : get_package_summary packages hasScope previous led now = (some s, led')) :
    s.recent_changes.Pairwise (fun a b => b.detected_at ≤ a.detected_at)
    ∧ s.recent_changes.length ≤ 30
    ∧ (hasScope = true → packages ≠ [] →
        s.recent_changes.length
          = min (compare_packages (pkgsList packages) previous led now).1.length 30) := by
  by_cases hemp : packages = []
  · subst hemp
    have hs : s = emptySummary := by
      have := congrArg Prod.fst h
      simpa [get_package_summary] using this.symm
    subst hs
    exact ⟨List.Pairwise.nil, by simp [emptySummary], fun _ hne => absurd rfl hne⟩
  · simp only [get_package_summary, if_neg hemp] at h
    cases hm : (pkgsList packages).mapM
        (fun p => (pyInt? (getD p sizeF "0".data)).map fun z => (p, z)) with
    | none =>
      rw [hm] at h
      exact absurd (congrArg Prod.fst h) (by simp)
    | some sized =>
      rw [hm] at h
      have hsome := congrArg Prod.fst h
      simp only at hsome
      have hseq := Option.some_injective _ hsome
      have hrec : s.recent_changes
          = (if hasScope = true
              then compare_packages (pkgsList packages) previous led now
              else ([], led)).1.take 30 := by
        rw [← hseq]
      cases hasScope with
      | true =>
        rw [if_pos rfl] at hrec
        refine ⟨?_, ?_, ?_⟩
        · rw [hrec]
          refine List.Pairwise.sublist (List.take_sublist _ _) ?_
          show (sortDescBy (fun c : ChangeRec => c.detected_at) _).Pairwise _
          exact pairwise_sortDescBy _ _
        · rw [hrec]
          exact List.length_take_le _ _
        · intro _ _
          rw [hrec, List.length_take, Nat.min_comm]
      | false =>
        rw [if_neg (by simp)] at hrec
        refine ⟨?_, ?_, fun hsc => Bool.noConfusion hsc⟩
        · rw [hrec]
          simp
        · rw [hrec]
          simp

theorem C4_cap_and_order_witness :
    ((get_package_summary [[(pkgF, "a".data), (verF, "1".data)]] true [] [] "t".data).1.getD
        emptySummary).recent_changes.length
      = min (compare_packages (pkgsList [[(pkgF, "a".data), (verF, "1".data)]])
          [] [] "t".data).1.length 30 :=
  (C4_cap_and_order [[(pkgF, "a".data), (verF, "1".data)]] true [] [] "t".data
      ((get_package_summary [[(pkgF, "a".data), (verF, "1".data)]] true [] [] "t".data).1.getD
        emptySummary)
      ((get_package_summary [[(pkgF, "a".data), (verF, "1".data)]] true [] [] "t".data).2)
      (by rfl)).2.2 rfl (by decide)

/-- C10: a record whose `Package` field is missing or empty never reaches the
index or any projection: the index built from the batch equals the index
built from the batch with all such records removed; every index entry has a
non-empty name that is its winning record's own `Package` value; and every
change record produced by diffing the index carries a non-empty name. -/
theorem C10_empty_name_excluded (packages : List FieldMap) (previous : Baseline)
    (led : Ledger) (now : Str) :
    uniquePackages packages
      = uniquePackages (packages.filter fun p => !(decide (getD p pkgF [] = [])))
    ∧ (∀ e ∈ uniquePackages packages, e.1 ≠ [] ∧ alookup e.2 pkgF = some e.1)
    ∧ ∀ r ∈ (compare_packages (pkgsList packages) previous led now).1,
        getD r.fields pkgF [] ≠ [] := by
  refine ⟨foldl_dedupStep_filter packages [],
    foldl_dedupStep_entries packages [] (by simp), ?_⟩
  intro r hr
  have hs : r ∈ sortDescBy (fun c : ChangeRec => c.detected_at)
      ((compareLoop previous now (pkgsList packages) led).1
        ++ (compareLoop previous now (pkgsList packages) led).2.1) := hr
  have hmem : r.fields ∈ pkgsList packages := by
    rcases List.mem_append.mp ((mem_sortDescBy _ r _).mp hs) with hm | hm
    · exact ((compareLoop_shape previous now _ led).1 r hm).2.2.1
    · exact ((compareLoop_shape previous now _ led).2 r hm).2.1
  obtain ⟨e, he, hfe⟩ := List.mem_map.mp hmem
  obtain ⟨h1, h2⟩ := foldl_dedupStep_entries packages [] (by simp) e he
  rw [← hfe]
  intro hemp
  rw [getD, h2] at hemp
  exact h1 (by simpa using hemp)

theorem C10_empty_name_excluded_witness :
    uniquePackages [[(pkgF, "a".data), (verF, "1".data)], [(verF, "9".data)]]
      = uniquePackages
          ([[(pkgF, "a".data), (verF, "1".data)], [(verF, "9".data)]].filter
            fun p => !(decide (getD p pkgF [] = []))) :=
  (C10_empty_name_excluded [[(pkgF, "a".data), (verF, "1".data)], [(verF, "9".data)]]
    [] [] "t".data).1

/-- C8: for every well-formed input text (the line decomposition of a
sequence of well-formed stanzas separated by blank lines), the parser returns
exactly one field mapping per stanza, in input order; within each mapping the
fields appear in the order their keys were first seen, each key maps to the
(trimmed) text after the first colon of its field line, and each continuation
line's trimmed content is appended to the most recently started field's
value, joined by a single space — i.e. the parse equals `evalStanza` of each
stanza. -/
theorem C8_parser_round_trip (content : String) (stanzas : List (List Item))
    (hwf : ∀ st ∈ stanzas, wfStanza st)
    (hc : content.data = joinNl (renderLines stanzas)) :
    parse_packages_file content = stanzas.map evalStanza := by
  cases stanzas with
  | nil =>
    show parseLines (splitLines content.data) = _
    rw [hc]
    rfl
  | cons s rest =>
    have hnn := renderLines_no_newline (s :: rest) hwf
    have hne := renderLines_ne_nil (s :: rest) hwf (by simp)
    show parseLines (splitLines content.data) = _
    rw [hc, splitLines_joinNl _ hne hnn]
    have hfold := flush_foldl_renderLines (s :: rest) [] hwf (by simp)
    simpa [parseLines] using hfold

theorem C8_parser_round_trip_witness :
    parse_packages_file "Package:foo\nDescription:a\n b\n\nPackage:bar"
      = [[.fld "Package".data "foo".data, .fld "Description".data "a".data,
          .cont "b".data],
         [.fld "Package".data "bar".data]].map evalStanza :=
  C8_parser_round_trip "Package:foo\nDescription:a\n b\n\nPackage:bar"
    [[.fld "Package".data "foo".data, .fld "Description".data "a".data,
      .cont "b".data],
     [.fld "Package".data "bar".data]]
    (by decide) (by decide)

end LliurexState
